import Mathlib

/-
Verification of the structural-analysis engine of the MuseScore 3 parser
in src/tools/ms3.py.  Python functions are shallowly embedded as executable
Lean definitions: pandas tables become lists (list position = row label),
NaN cells become Option, Python Fraction values become Rat, and code paths
that raise exceptions return none or Except.error.
-/

namespace Ms3

/-! ## Rational arithmetic and the duration table (ms3.py lines 22-31) -/

/-- A Python numeric value as written in the source: its exact rational value
together with whether it is represented as an IEEE float.  The literals in
the DURATIONS dict are the floats 1.0 and 2.0 for measure, breve and whole,
and Fraction objects for the rest; every Fraction there is built from a
dyadic float literal (1/2, 1/4, ..., 1/128) and therefore denotes its
mathematical value exactly. -/
structure PyNum where
  val : Rat
  isFloat : Bool
deriving DecidableEq, Repr

/-- The DURATIONS dict of ms3.py: duration-type token to numeric value.
measure, breve and whole are the float literals 1.0, 2.0, 1.0; the others
are Fraction objects.  A missing key raises KeyError, modeled as none. -/
def DURATIONS : String → Option PyNum
  | "measure" => some ⟨1, true⟩
  | "breve"   => some ⟨2, true⟩
  | "whole"   => some ⟨1, true⟩
  | "half"    => some ⟨1/2, false⟩
  | "quarter" => some ⟨1/4, false⟩
  | "eighth"  => some ⟨1/8, false⟩
  | "16th"    => some ⟨1/16, false⟩
  | "32nd"    => some ⟨1/32, false⟩
  | "64th"    => some ⟨1/64, false⟩
  | "128th"   => some ⟨1/128, false⟩
  | _ => none

/-! ## Tonal pitch class spelling (ms3.py lines 499-520, spell_tpc) -/

/-- The PITCH_NAMES dict (ms3.py lines 37-43), keys 0..6.  The function is
only applied to residues mod 7, so the default branch is unreachable. -/
def PITCH_NAMES : Nat → String
  | 0 => "F"
  | 1 => "C"
  | 2 => "G"
  | 3 => "D"
  | 4 => "A"
  | 5 => "E"
  | 6 => "B"
  | _ => ""

/-- spell_tpc for a single integer input (ms3.py lines 515-520): add 1,
then branch on the sign of the shifted value; Python // is floor division
(Int.fdiv) and Python % with a positive modulus is Int.emod. -/
def spell_tpc (tpc : Int) : String :=
  let t := tpc + 1
  let acc := if t < 0 then String.mk (List.replicate (t.fdiv 7).natAbs 'b')
             else String.mk (List.replicate (t.fdiv 7).toNat '#')
  PITCH_NAMES (t.emod 7).toNat ++ acc

/-- The spelling rule exactly as the claim states it: name from the table at
position (tpc+1) mod 7, then (tpc+1) // 7 sharps when that quotient is
non-negative and its absolute value in flats otherwise. -/
def spellTpcClaim (tpc : Int) : String :=
  let t := tpc + 1
  let q := t.fdiv 7
  PITCH_NAMES (t.emod 7).toNat ++
    (if 0 ≤ q then String.mk (List.replicate q.toNat '#')
     else String.mk (List.replicate q.natAbs 'b'))

/-! ## Staff measure-count check and reconciliation (ms3.py lines 866-885) -/

/-- nan_eq (lines 446-461) applied to two measure-indexed columns, as the
reconciliation loop of Score.__init__ does: the elementwise pandas
comparison a == b raises ValueError when the two Series are not identically
labeled, which for the RangeIndex-indexed mc_info columns means exactly
when the two staves' measure counts differ; otherwise it is the elementwise
equality with NaN equal to NaN (none here). -/
def nan_eq (a b : List (Option Int)) : Except String (List Bool) :=
  if a.length = b.length then
    Except.ok ((a.zip b).map fun p => decide (p.1 = p.2))
  else Except.error "Can only compare identically-labeled Series objects"

/-- The inner loop of lines 881-885 for one column: staff 1's column
against each later staff's.  Series.equals (line 882) is total - it returns
False for a column of a different shape - but every non-equal pair then
reaches nan_eq (line 883), whose exception propagates out of
Score.__init__; an equal-length pair only produces a warning log and the
loop continues. -/
def reconcileLoop (c1 : List (Option Int)) :
    List (List (Option Int)) → Except String Unit
  | [] => Except.ok ()
  | c :: rest =>
    if c1 = c then reconcileLoop c1 rest
    else
      match nan_eq c1 c with
      | Except.error e => Except.error e
      | Except.ok _ => reconcileLoop c1 rest

/-- Lines 866-885 of Score.__init__ on the per-staff keysig columns (the
first column the loop at line 876 visits; every staff's mc_info has it,
with length equal to that staff's measure count).  The measure-count check
itself (lines 866-869) only calls logging.error - the Bool payload records
whether it fired - but the reconciliation loop that follows compares staff
1's column with every later staff's, and the pandas ValueError out of
nan_eq on the first differently-sized non-equal column is uncaught, ending
Score.__init__ with no model produced. -/
def measureCountStage (cols : List (List (Option Int))) : Except String Bool :=
  (match cols with
   | [] => Except.ok ()
   | c1 :: rest => reconcileLoop c1 rest).map fun _ =>
    decide (1 < (cols.map List.length).dedup.length)

theorem dedup_length_lt_iff (counts : List Nat) :
    1 < counts.dedup.length ↔ ∃ a ∈ counts, ∃ b ∈ counts, a ≠ b := by
  constructor
  · intro h
    rcases hd : counts.dedup with _ | ⟨a, _ | ⟨b, l⟩⟩
    · rw [hd] at h; simp at h
    · rw [hd] at h; simp at h
    · have ha : a ∈ counts := List.mem_dedup.mp (hd ▸ List.mem_cons_self a (b :: l))
      have hb : b ∈ counts :=
        List.mem_dedup.mp (hd ▸ List.mem_cons_of_mem a (List.mem_cons_self b l))
      have hnd : counts.dedup.Nodup := counts.nodup_dedup
      rw [hd] at hnd
      refine ⟨a, ha, b, hb, fun hab => ?_⟩
      exact (List.nodup_cons.mp hnd).1 (hab ▸ List.mem_cons_self b l)
  · rintro ⟨a, ha, b, hb, hab⟩
    by_contra h
    push_neg at h
    rcases hd : counts.dedup with _ | ⟨x, _ | ⟨y, l⟩⟩
    · have : a ∈ counts.dedup := List.mem_dedup.mpr ha
      rw [hd] at this
      simp at this
    · have h1 : a ∈ counts.dedup := List.mem_dedup.mpr ha
      have h2 : b ∈ counts.dedup := List.mem_dedup.mpr hb
      rw [hd] at h1 h2
      simp at h1 h2
      exact hab (h1.trans h2.symm)
    · rw [hd] at h; simp at h

/-- C9: for every integer tpc in MuseScore normalized form, the spelled pitch
name produced by spell_tpc equals the name table at (tpc+1) mod 7 followed by
(tpc+1) // 7 sharp signs when that quotient is non-negative and its absolute
value in flat signs otherwise. -/
theorem C9_spell_tpc_matches_claim (tpc : Int) : spell_tpc tpc = spellTpcClaim tpc := by
  unfold spell_tpc spellTpcClaim
  by_cases h : tpc + 1 < 0
  · have hq : (tpc + 1).fdiv 7 < 0 := Int.fdiv_neg' h (by norm_num)
    simp [h, not_le.mpr hq]
  · have hq : 0 ≤ (tpc + 1).fdiv 7 := Int.fdiv_nonneg (not_lt.mp h) (by norm_num)
    simp [h, hq]

/-- C9 witness: concrete evaluation of the spelling function. -/
theorem C9_spell_tpc_witness :
    spell_tpc 0 = spellTpcClaim 0 ∧ spell_tpc 0 = "C" ∧
    spell_tpc (-9) = spellTpcClaim (-9) ∧ spell_tpc (-9) = "Bbb" ∧
    spell_tpc 13 = spellTpcClaim 13 ∧ spell_tpc 13 = "F##" :=
  ⟨C9_spell_tpc_matches_claim 0, by decide,
   C9_spell_tpc_matches_claim (-9), by decide,
   C9_spell_tpc_matches_claim 13, by decide⟩

/-- C2: the duration tokens all map to the exact rational the spec states,
but the values for measure, breve and whole are stored as IEEE floats, so
the claim that no value on an invariant-bearing temporal path is represented
in floating point fails: a whole-note chord inside a tuplet multiplies this
float by a Fraction, producing an inexact float duration. -/
theorem C2_duration_table_has_floats :
    ((DURATIONS "measure").map PyNum.val = some 1 ∧
     (DURATIONS "breve").map PyNum.val = some 2 ∧
     (DURATIONS "whole").map PyNum.val = some 1 ∧
     (DURATIONS "half").map PyNum.val = some (1/2) ∧
     (DURATIONS "quarter").map PyNum.val = some (1/4) ∧
     (DURATIONS "eighth").map PyNum.val = some (1/8) ∧
     (DURATIONS "16th").map PyNum.val = some (1/16) ∧
     (DURATIONS "32nd").map PyNum.val = some (1/32) ∧
     (DURATIONS "64th").map PyNum.val = some (1/64) ∧
     (DURATIONS "128th").map PyNum.val = some (1/128)) ∧
    ((DURATIONS "measure").map PyNum.isFloat = some true ∧
     (DURATIONS "breve").map PyNum.isFloat = some true ∧
     (DURATIONS "whole").map PyNum.isFloat = some true) := by
  refine ⟨⟨rfl, rfl, rfl, rfl, rfl, rfl, rfl, rfl, rfl, rfl⟩, rfl, rfl, rfl⟩

theorem nan_eq_error (c1 c : List (Option Int)) (h : c1.length ≠ c.length) :
    nan_eq c1 c = Except.error "Can only compare identically-labeled Series objects" := by
  simp [nan_eq, h]

theorem nan_eq_ok (c1 c : List (Option Int)) (h : c1.length = c.length) :
    nan_eq c1 c = Except.ok ((c1.zip c).map fun p => decide (p.1 = p.2)) := by
  simp [nan_eq, h]

/-- The reconciliation loop raises as soon as some later staff's column has
a different length from staff 1's. -/
theorem reconcileLoop_error (c1 : List (Option Int)) :
    ∀ rest : List (List (Option Int)), (∃ c ∈ rest, c.length ≠ c1.length) →
      reconcileLoop c1 rest =
        Except.error "Can only compare identically-labeled Series objects" := by
  intro rest
  induction rest with
  | nil => intro h; simp at h
  | cons c r ih =>
    intro h
    by_cases hlen : c.length = c1.length
    · have hr : ∃ d ∈ r, d.length ≠ c1.length := by
        rcases h with ⟨d, hd, hne⟩
        rcases List.mem_cons.mp hd with rfl | hd2
        · exact absurd hlen hne
        · exact ⟨d, hd2, hne⟩
      by_cases heq : c1 = c
      · simp only [reconcileLoop, if_pos heq]
        exact ih hr
      · simp only [reconcileLoop, if_neg heq, nan_eq_ok c1 c hlen.symm]
        exact ih hr
    · have heq : ¬ c1 = c := fun he => hlen (congrArg List.length he).symm
      simp only [reconcileLoop, if_neg heq,
        nan_eq_error c1 c fun h2 => hlen h2.symm]

/-- With every column the length of staff 1's, the loop completes. -/
theorem reconcileLoop_ok (c1 : List (Option Int)) :
    ∀ rest : List (List (Option Int)), (∀ c ∈ rest, c.length = c1.length) →
      reconcileLoop c1 rest = Except.ok () := by
  intro rest
  induction rest with
  | nil => intro h; rfl
  | cons c r ih =>
    intro h
    have hc := h c (List.mem_cons_self c r)
    have hrest : ∀ d ∈ r, d.length = c1.length :=
      fun d hd => h d (List.mem_cons_of_mem c hd)
    by_cases heq : c1 = c
    · simp only [reconcileLoop, if_pos heq]
      exact ih hrest
    · simp only [reconcileLoop, if_neg heq, nan_eq_ok c1 c hc.symm]
      exact ih hrest

/-- C8: if the staves of the input document have different measure counts,
the Score constructor aborts and no model is produced.  The check at lines
866-869 itself only logs, but the reconciliation loop at lines 876-885 then
compares staff 1's column against a differently-sized staff's column, and
the pandas comparison inside nan_eq raises an uncaught ValueError; with
equal counts the stage completes without abort and without the error log. -/
theorem C8_different_counts_abort (cols : List (List (Option Int))) :
    ((∃ a ∈ cols.map List.length, ∃ b ∈ cols.map List.length, a ≠ b) →
      measureCountStage cols =
        Except.error "Can only compare identically-labeled Series objects") ∧
    ((∀ a ∈ cols.map List.length, ∀ b ∈ cols.map List.length, a = b) →
      measureCountStage cols = Except.ok false) := by
  constructor
  · rintro ⟨a, ha, b, hb, hab⟩
    rcases cols with _ | ⟨c1, rest⟩
    · simp at ha
    · have hex : ∃ c ∈ rest, c.length ≠ c1.length := by
        obtain ⟨x, hx, rfl⟩ := List.mem_map.mp ha
        obtain ⟨y, hy, rfl⟩ := List.mem_map.mp hb
        by_cases hxc : x.length = c1.length
        · have hyc : y.length ≠ c1.length := fun hyl => hab (hxc.trans hyl.symm)
          rcases List.mem_cons.mp hy with rfl | hy2
          · exact absurd rfl hyc
          · exact ⟨y, hy2, hyc⟩
        · rcases List.mem_cons.mp hx with rfl | hx2
          · exact absurd rfl hxc
          · exact ⟨x, hx2, hxc⟩
      simp only [measureCountStage]
      rw [reconcileLoop_error c1 rest hex]
      rfl
  · intro h
    rcases cols with _ | ⟨c1, rest⟩
    · rfl
    · have hall : ∀ c ∈ rest, c.length = c1.length := fun c hc =>
        h c.length (List.mem_map.mpr ⟨c, List.mem_cons_of_mem c1 hc, rfl⟩)
          c1.length (List.mem_map.mpr ⟨c1, List.mem_cons_self c1 rest, rfl⟩)
      have hflag : ¬ 1 < (((c1 :: rest).map List.length).dedup.length) := by
        rw [dedup_length_lt_iff]
        rintro ⟨a, ha2, b, hb2, hab⟩
        exact hab (h a ha2 b hb2)
      have hd : decide (1 < (((c1 :: rest).map List.length).dedup.length)) = false :=
        decide_eq_false hflag
      simp only [List.map_cons] at hd
      simp only [measureCountStage]
      rw [reconcileLoop_ok c1 rest hall]
      simp [hd, Except.map]

/-- C8 witness: staves of 2 and 3 measures abort the constructor with the
uncaught comparison error; two staves of 1 measure complete the stage. -/
theorem C8_different_counts_abort_witness :
    measureCountStage [[none, none], [none, none, none]] =
      Except.error "Can only compare identically-labeled Series objects" ∧
    measureCountStage [[none], [none]] = Except.ok false :=
  ⟨(C8_different_counts_abort [[none, none], [none, none, none]]).1 (by decide),
   (C8_different_counts_abort [[none], [none]]).2 (by decide)⟩

/-! ## XML nodes and the Volta feature extractor (ms3.py lines 372-379) -/

/-- A fragment of the parsed XML tree: tag name, integer text content when
the text parses as an int (none models missing or non-integer text, on which
the int() conversion in the source raises), and child nodes in document
order. -/
inductive XNode where
  | mk (tagname : String) (text : Option Int) (children : List XNode)

def XNode.tagname : XNode → String
  | .mk t _ _ => t

def XNode.text : XNode → Option Int
  | .mk _ t _ => t

def XNode.children : XNode → List XNode
  | .mk _ _ c => c

mutual
/-- bs4 find: first descendant with the given tag name, depth first in
document order (the searched node itself is not a candidate). -/
def XNode.findDesc (nm : String) : XNode → Option XNode
  | .mk _ _ cs => findInList nm cs

def findInList (nm : String) : List XNode → Option XNode
  | [] => none
  | c :: rest =>
    if c.tagname = nm then some c
    else
      match XNode.findDesc nm c with
      | some r => some r
      | none => findInList nm rest
end

/-- feature_from_node for a Volta tag: navigate to the location element under
next, start from 1 when a fractions element is found and 0 otherwise, add the
integer content of a measures element when found, and log a soft error (the
Bool component) when the resulting value is 0.  Navigation failures and a
measures element without integer text raise in Python, modeled as none. -/
def voltaFeature (volta : XNode) : Option (Int × Bool) :=
  match findInList "next" volta.children with
  | none => none
  | some nxt =>
    match findInList "location" nxt.children with
    | none => none
    | some loc =>
      let v0 : Int := if (findInList "fractions" loc.children).isSome then 1 else 0
      match findInList "measures" loc.children with
      | some m =>
        match m.text with
        | none => none
        | some k => some (v0 + k, decide (v0 + k = 0))
      | none => some (v0, decide (v0 = 0))

/-- Modelled from the claim (not the code): 0 when only the fractions
element is present, otherwise the integer content of the measures child;
the soft-error flag is set exactly on value 0. -/
def voltaFeatureClaim (volta : XNode) : Option (Int × Bool) :=
  match findInList "next" volta.children with
  | none => none
  | some nxt =>
    match findInList "location" nxt.children with
    | none => none
    | some loc =>
      if (findInList "fractions" loc.children).isSome ∧
         (findInList "measures" loc.children).isNone then
        some (0, true)
      else
        match findInList "measures" loc.children with
        | some m => m.text.map fun k => (k, decide (k = 0))
        | none => none

/-- A Volta element whose location carries only a fractions child. -/
def fracOnlyVolta : XNode :=
  .mk "Volta" none [.mk "next" none [.mk "location" none [.mk "fractions" none []]]]

/-- C6 counterexample: for a Volta whose next/location holds only a
fractions element the code extracts length 1 with no soft error, while the
claim demands length 0 and a soft error. -/
theorem C6_counterexample :
    voltaFeature fracOnlyVolta = some (1, false) ∧
    voltaFeatureClaim fracOnlyVolta = some (0, true) ∧
    voltaFeature fracOnlyVolta ≠ voltaFeatureClaim fracOnlyVolta := by
  refine ⟨rfl, rfl, ?_⟩
  intro h
  simp [voltaFeature, voltaFeatureClaim, fracOnlyVolta, findInList, XNode.findDesc,
    XNode.tagname, XNode.children] at h

/-- C6 amended: the extracted volta length is the integer content of the
measures child (0 when absent) plus 1 when a fractions element is present,
so a fractions-only location yields 1; the soft error fires exactly when the
extracted value is 0, that is when neither child contributes. -/
theorem C6_volta_length (volta nxt loc : XNode)
    (h1 : findInList "next" volta.children = some nxt)
    (h2 : findInList "location" nxt.children = some loc) :
    (∀ v e, voltaFeature volta = some (v, e) → (e = true ↔ v = 0)) ∧
    ((findInList "fractions" loc.children).isSome →
      findInList "measures" loc.children = none →
      voltaFeature volta = some (1, false)) ∧
    (∀ m k, findInList "measures" loc.children = some m → m.text = some k →
      voltaFeature volta =
        some ((if (findInList "fractions" loc.children).isSome then 1 else 0) + k,
          decide ((if (findInList "fractions" loc.children).isSome then (1:Int) else 0) + k = 0))) ∧
    (findInList "fractions" loc.children = none →
      findInList "measures" loc.children = none →
      voltaFeature volta = some (0, true)) := by
  simp only [voltaFeature, h1, h2]
  refine ⟨?_, ?_, ?_, ?_⟩
  · intro v e h
    rcases hm : findInList "measures" loc.children with _ | m
    · rw [hm] at h
      simp only [Option.some.injEq, Prod.mk.injEq] at h
      obtain ⟨hv, he⟩ := h
      subst hv
      subst he
      simp
    · simp only [hm] at h
      rcases ht : m.text with _ | k
      · rw [ht] at h; exact absurd h (by simp)
      · rw [ht] at h
        simp only [Option.some.injEq, Prod.mk.injEq] at h
        obtain ⟨hv, he⟩ := h
        subst hv
        subst he
        simp
  · intro hf hm
    rw [hm]
    simp [hf]
  · intro m k hm ht
    simp only [hm, ht]
  · intro hf hm
    rw [hm]
    simp [hf]

/-- C6 witness: a Volta with measures text 2 and no fractions extracts 2. -/
theorem C6_volta_length_witness :
    voltaFeature (.mk "Volta" none
      [.mk "next" none [.mk "location" none [.mk "measures" (some 2) []]]]) =
      some (2, false) := by
  have h := C6_volta_length
    (.mk "Volta" none [.mk "next" none [.mk "location" none [.mk "measures" (some 2) []]]])
    (.mk "next" none [.mk "location" none [.mk "measures" (some 2) []]])
    (.mk "location" none [.mk "measures" (some 2) []]) rfl rfl
  have h3 := h.2.2.1 (.mk "measures" (some 2) []) 2 rfl rfl
  simpa using h3

/-! ## get_notes feature activation and row filters (ms3.py lines 1220-1299) -/

/-- The extra feature columns get_notes can add (ms3.py line 1221). -/
def AVAILABLE_FEATURES : List String := ["octaves", "note_names", "beats", "pcs", "n"]

/-- The note-frame columns created in Section.__init__ (line 597), without
the optional articulation column, which changes nothing below. -/
def NOTE_COLS : List String :=
  ["mc", "mn", "onset", "duration", "gracenote", "nominal_duration", "scalar",
   "tied", "tpc", "midi", "staff", "voice", "volta"]

/-- One cell of the note frame: NaN, an integer, or a string.  Rational
cells are not needed for the claims below. -/
inductive Cell where
  | nan
  | int (i : Int)
  | str (s : String)
deriving DecidableEq, BEq, Repr

/-- A selector value passed as a get_notes keyword argument. -/
inductive PySel where
  | int (i : Int)
  | str (s : String)
  | bool (b : Bool)
  | pair (a b : Int)
  | coll (l : List Int)
deriving DecidableEq, Repr

/-- Whether get_notes activates feature f: the features dict starts false
for the five available features (beats already true when a beatsize argument
was passed), and the kwargs loop sets features[feature] = True for every
keyword that is not a note-frame column, regardless of the selector value. -/
def activatedFeature (dfCols : List String) (beatsizeGiven : Bool)
    (kwargs : List (String × PySel)) (f : String) : Bool :=
  (f == "beats" && beatsizeGiven) ||
    kwargs.any fun kv => kv.1 == f && !(dfCols.contains f)

/-- One pass of the get_notes filter loop for a single keyword: scalar
selectors filter by equality, True keeps non-NaN cells (tied additionally
restricted to 0 and 1), False is skipped, a 2-tuple keeps an inclusive
range, and a collection filters by membership. -/
def filterStep (df : List (String → Cell)) (feature : String) (sel : PySel) :
    List (String → Cell) :=
  match sel with
  | .int i => df.filter fun r => r feature == Cell.int i
  | .str s => df.filter fun r => r feature == Cell.str s
  | .bool b =>
    if b then
      if feature = "tied" then
        df.filter fun r => r feature == Cell.int 0 || r feature == Cell.int 1
      else
        df.filter fun r => r feature != Cell.nan
    else df
  | .pair a b =>
    df.filter fun r =>
      match r feature with
      | Cell.int v => a ≤ v && v ≤ b
      | _ => false
  | .coll l =>
    df.filter fun r =>
      match r feature with
      | Cell.int v => l.contains v
      | _ => false

/-- C10: passing a recognized feature keyword with value False still
activates the feature, exactly as for True, and the filter pass for a False
selector removes no rows. -/
theorem C10_false_keyword_activates (f : String) (hf : f ∈ AVAILABLE_FEATURES)
    (kwargs : List (String × PySel)) (bg : Bool) (df : List (String → Cell)) :
    activatedFeature NOTE_COLS bg ((f, PySel.bool false) :: kwargs) f = true ∧
    (∀ g, activatedFeature NOTE_COLS bg ((f, PySel.bool false) :: kwargs) g =
          activatedFeature NOTE_COLS bg ((f, PySel.bool true) :: kwargs) g) ∧
    filterStep df f (PySel.bool false) = df := by
  refine ⟨?_, fun g => rfl, rfl⟩
  have hmem : f ∉ NOTE_COLS := by
    fin_cases hf <;> decide
  simp [activatedFeature]
  exact Or.inr (Or.inl hmem)

/-- C10 witness: concrete instance for the octaves keyword. -/
theorem C10_false_keyword_activates_witness :
    activatedFeature NOTE_COLS false [("octaves", PySel.bool false)] "octaves" = true ∧
    (∀ g, activatedFeature NOTE_COLS false [("octaves", PySel.bool false)] g =
          activatedFeature NOTE_COLS false [("octaves", PySel.bool true)] g) ∧
    filterStep [] "octaves" (PySel.bool false) = [] :=
  C10_false_keyword_activates "octaves" (by decide) [] false []

/-! ## get_notes section selection (ms3.py lines 524-555 and 1181-1217) -/

/-- treat_section_index for one integer: normalize a negative index against
the section count n and range-check; out of range logs a warning and yields
none. -/
def treatOne (i : Int) (n : Nat) : Option Nat :=
  if i < 0 then
    if i < -(n : Int) then none else some (i + n).toNat
  else
    if i > (n : Int) - 1 then none else some i.toNat

/-- A section argument of get_notes: a single integer, a 2-tuple, or a list
of integers. -/
inductive SectionSel where
  | one (i : Int)
  | pair (a b : Int)
  | many (l : List Int)
deriving DecidableEq, Repr

/-- The section-selection stage of get_notes: which section ids, in order,
have their note frames concatenated (the multiindex keys and the letter
suffixes for repeated ids do not influence the selection).  The single-int
branch raises ValueError when treat_section_index returns none, modeled as
Except.error; an all-invalid list degrades to the empty result None. -/
def getNotesSelect (n : Nat) : Option SectionSel → Except String (Option (List Nat))
  | none => .ok (some (List.range n))
  | some (.one i) =>
    match treatOne i n with
    | none => .error "Section does not exist."
    | some s => .ok (some [s])
  | some (.pair a b) =>
    let fro := (treatOne a n).getD 0
    let tto := (treatOne b n).getD (n - 1)
    let rng : List Nat :=
      if fro ≤ tto then List.range' fro (tto + 1 - fro)
      else (List.range' tto (fro + 1 - tto)).reverse
    let treated := (rng.map fun t => treatOne (t : Int) n).filterMap id
    if treated.length > 0 then .ok (some treated) else .ok none
  | some (.many l) =>
    let treated := (l.map fun t => treatOne t n).filterMap id
    if treated.length > 0 then .ok (some treated) else .ok none

/-- C7 counterexample: on a score with a single section, get_notes with
section index 1 raises ValueError instead of degrading to an empty result:
the exception escapes to the caller. -/
theorem C7_counterexample :
    getNotesSelect 1 (some (SectionSel.one 1)) = Except.error "Section does not exist." := rfl

/-- C7 amended: no exception escapes the section-selection stage of
get_notes for the None, tuple and list selector forms, where invalid
entries degrade (tuple ends are replaced by the first or last section, list
entries are dropped, an all-invalid list yields the empty result), but an
out-of-range single integer selector raises ValueError after logging a
warning. -/
theorem C7_get_notes_selectors (n : Nat) :
    (getNotesSelect n none = .ok (some (List.range n))) ∧
    (∀ a b e, getNotesSelect n (some (SectionSel.pair a b)) ≠ Except.error e) ∧
    (∀ l e, getNotesSelect n (some (SectionSel.many l)) ≠ Except.error e) ∧
    (∀ i, (∃ e, getNotesSelect n (some (SectionSel.one i)) = Except.error e) ↔
      treatOne i n = none) ∧
    (∀ l, (∀ t ∈ l, treatOne t n = none) →
      getNotesSelect n (some (SectionSel.many l)) = .ok none) := by
  refine ⟨rfl, ?_, ?_, ?_, ?_⟩
  · intro a b e
    simp only [getNotesSelect]
    split <;> split <;> simp
  · intro l e
    simp only [getNotesSelect]
    split <;> simp
  · intro i
    constructor
    · rintro ⟨e, he⟩
      rcases h : treatOne i n with _ | s
      · rfl
      · simp only [getNotesSelect, h] at he
        exact Except.noConfusion he
    · intro h
      exact ⟨"Section does not exist.", by simp only [getNotesSelect, h]⟩
  · intro l h
    have hnil : (l.map fun t => treatOne t n).filterMap id = [] := by
      rw [List.filterMap_map]
      rw [List.filterMap_eq_nil_iff]
      intro t ht
      simpa using h t ht
    simp only [getNotesSelect, hnil]
    rfl

/-- C7 witness: concrete instances of the amended statement. -/
theorem C7_get_notes_selectors_witness :
    getNotesSelect 2 (some (SectionSel.many [5, -7])) = .ok none ∧
    getNotesSelect 2 (some (SectionSel.pair (-9) 9)) ≠ Except.error "x" :=
  ⟨(C7_get_notes_selectors 2).2.2.2.2 [5, -7] (by decide),
   (C7_get_notes_selectors 2).2.1 (-9) 9 "x"⟩

/-! ## Note-event walker (ms3.py lines 624-698, Section.__init__) -/

/-- A Note child of a Chord: raw tpc and pitch text values, and the optional
Spanner of type Tie recorded as the presence of its prev and next children. -/
structure NoteTag where
  tpc : Int
  pitch : Int
  tie : Option (Bool × Bool)
deriving DecidableEq, Repr

/-- One event inside a voice tag, restricted to the tag set Chord, Rest,
Tuplet, endTuplet that the walker iterates over.  A Tuplet carries the
integer texts of normalNotes and actualNotes; a Chord or Rest carries its
durationType text, the integer text of an optional dots child, for a Chord
the tag name of an optional grace child and its Note children. -/
inductive VoiceEvent where
  | tuplet (normalNotes actualNotes : Int)
  | endTuplet
  | chord (durationType : String) (dots : Option Int) (grace : Option String)
      (notes : List NoteTag)
  | rest (durationType : String) (dots : Option Int)
deriving DecidableEq, Repr

/-- The dot factor sum of (1/2) to the i for i in range(d+1), exactly the
comprehension in line 641. -/
def dotFactor (d : Int) : Rat :=
  ((List.range (d + 1).toNat).map fun i => (1/2 : Rat) ^ i).sum

/-- Python addition with float contagion: the val field is the value under
exact arithmetic, and isFloat is set when either operand is a float, in
which case the Python value is an IEEE double that may differ from val by
rounding (the divergence recorded under C2). -/
def PyNum.add (a b : PyNum) : PyNum := ⟨a.val + b.val, a.isFloat || b.isFloat⟩

/-- Python multiplication by an exact Fraction (scalar and dotscalar are
always Fractions: they arise from int and Fraction arithmetic only), with
the same float contagion. -/
def PyNum.mulQ (a : PyNum) (q : Rat) : PyNum := ⟨a.val * q, a.isFloat⟩

/-- One emitted note row.  The per-measure constants mc, mn, staff, voice,
volta and the optional articulation are fixed outside the walker and
omitted; the scalar column stores dotscalar, as the code does.  Temporal
cells carry PyNum: their val field is the value under exact arithmetic and
isFloat records whether the Python cell is an IEEE float (true exactly when
the nominal duration came from a float entry of DURATIONS). -/
structure NoteRow where
  onset : PyNum
  duration : PyNum
  gracenote : Option String
  nominal_duration : PyNum
  scalar : Rat
  tpc : Int
  midi : Int
  tied : Option Int
deriving DecidableEq, Repr

/-- The per-voice event walk of Section.__init__ (lines 627-698): pointer
starts at Fraction 0, scalar at int 1 with an empty scalar stack; a Tuplet
pushes the scalar and multiplies it by normalNotes/actualNotes, endTuplet
pops, and a Chord or Rest computes nominal duration from DURATIONS, the
dot scalar and the duration (lines 639-642).  A Chord emits one row per
Note child (grace chords contribute duration 0 and do not advance the
pointer) and advances the pointer; the advance at lines 697-698 sits
inside the Chord branch opened at line 643, so a Rest discards the
duration it computed: it emits no rows and leaves the pointer unchanged
(its DURATIONS lookup still runs, so an unknown durationType still
raises).  none models KeyError on an unknown durationType,
ZeroDivisionError when actualNotes is 0, and pop from an empty scalar
stack. -/
def walkVoice : List VoiceEvent → PyNum → Rat → List Rat →
    Option (List NoteRow × PyNum)
  | [], pointer, _, _ => some ([], pointer)
  | .tuplet n a :: es, pointer, scalar, stack =>
    if a = 0 then none
    else walkVoice es pointer (scalar * ((n : Rat) / (a : Rat))) (scalar :: stack)
  | .endTuplet :: es, pointer, _, stack =>
    match stack with
    | [] => none
    | s :: st => walkVoice es pointer s st
  | .chord dt dots grace notes :: es, pointer, scalar, stack =>
    match DURATIONS dt with
    | none => none
    | some nd =>
      let dotscalar := match dots with
        | some d => dotFactor d * scalar
        | none => scalar
      let duration := nd.mulQ dotscalar
      let rows := notes.map fun note =>
        ({ onset := pointer,
           duration := if grace.isSome then ⟨0, false⟩ else duration,
           gracenote := grace,
           nominal_duration := nd,
           scalar := dotscalar,
           tpc := note.tpc - 14,
           midi := note.pitch,
           tied := note.tie.map fun t =>
             (if t.1 then -1 else 0) + (if t.2 then 1 else 0) } : NoteRow)
      let pointer2 := if grace.isSome then pointer else pointer.add duration
      (walkVoice es pointer2 scalar stack).map fun res => (rows ++ res.1, res.2)
  | .rest dt dots :: es, pointer, scalar, stack =>
    match DURATIONS dt with
    | none => none
    | some _ => walkVoice es pointer scalar stack

/-- The row a chord event emits for one Note child, with the claim's
duration formula nominal x scalar x dot sum written through dots.getD 0. -/
def chordRow (pointer : PyNum) (nd : PyNum) (sc : Rat) (dots : Option Int)
    (grace : Option String) (note : NoteTag) : NoteRow :=
  { onset := pointer,
    duration := if grace.isSome then ⟨0, false⟩
                else nd.mulQ (sc * dotFactor (dots.getD 0)),
    gracenote := grace,
    nominal_duration := nd,
    scalar := sc * dotFactor (dots.getD 0),
    tpc := note.tpc - 14,
    midi := note.pitch,
    tied := note.tie.map fun t =>
      (if t.1 then -1 else 0) + (if t.2 then 1 else 0) }

theorem dotFactor_zero : dotFactor 0 = 1 := by
  have h : List.range 1 = [0] := rfl
  simp [dotFactor, h]

theorem dotscalar_eq (sc : Rat) (dots : Option Int) :
    (match dots with
     | some d => dotFactor d * sc
     | none => sc) = sc * dotFactor (dots.getD 0) := by
  rcases dots with _ | d
  · simp [dotFactor_zero]
  · simp [mul_comm]

/-- Every row an event walk emits satisfies the duration formula: duration
equals nominal duration times the stored scalar column for a normal chord
(with the float taint of the nominal duration) and exact 0 for a grace
chord. -/
theorem walkVoice_rows (es : List VoiceEvent) (p : PyNum) (sc : Rat) (st : List Rat)
    (rows : List NoteRow) (q : PyNum) (h : walkVoice es p sc st = some (rows, q)) :
    ∀ r ∈ rows, (r.gracenote = none → r.duration = r.nominal_duration.mulQ r.scalar) ∧
      (r.gracenote ≠ none → r.duration = ⟨0, false⟩) := by
  induction es generalizing p sc st rows q with
  | nil =>
    simp only [walkVoice, Option.some.injEq, Prod.mk.injEq] at h
    rw [← h.1]
    intro r hr
    exact absurd hr (List.not_mem_nil r)
  | cons e es ih =>
    cases e with
    | tuplet n a =>
      simp only [walkVoice] at h
      split at h
      · exact absurd h (by simp)
      · exact ih _ _ _ _ _ h
    | endTuplet =>
      simp only [walkVoice] at h
      rcases st with _ | ⟨s, st⟩
      · exact absurd h (by simp)
      · exact ih _ _ _ _ _ h
    | chord dt dots grace notes =>
      simp only [walkVoice] at h
      rcases hd : DURATIONS dt with _ | nd
      · rw [hd] at h; exact absurd h (by simp)
      · rw [hd] at h
        simp only [Option.map_eq_some'] at h
        obtain ⟨⟨rows1, q1⟩, hw, heq⟩ := h
        cases heq
        intro r hr
        rcases List.mem_append.mp hr with hr1 | hr2
        · obtain ⟨note, -, rfl⟩ := List.mem_map.mp hr1
          constructor
          · intro hg
            simp only at hg
            simp [hg]
          · intro hg
            simp only at hg
            rcases hg2 : grace with _ | g
            · rw [hg2] at hg; exact absurd rfl hg
            · simp [hg2]
        · exact ih _ _ _ _ _ hw r hr2
    | rest dt dots =>
      simp only [walkVoice] at h
      rcases hd : DURATIONS dt with _ | nd
      · rw [hd] at h; exact absurd h (by simp)
      · rw [hd] at h
        exact ih _ _ _ _ _ h

theorem walkVoice_tuplet (es : List VoiceEvent) (p : PyNum) (sc : Rat) (st : List Rat)
    (n a : Int) (ha : a ≠ 0) :
    walkVoice (.tuplet n a :: es) p sc st =
      walkVoice es p (sc * ((n : Rat) / (a : Rat))) (sc :: st) := by
  simp only [walkVoice]
  rw [if_neg ha]

theorem walkVoice_endTuplet (es : List VoiceEvent) (p : PyNum) (sc s : Rat) (st : List Rat) :
    walkVoice (.endTuplet :: es) p sc (s :: st) = walkVoice es p s st := by
  simp only [walkVoice]

theorem walkVoice_chord (es : List VoiceEvent) (p : PyNum) (sc : Rat) (st : List Rat)
    (dt : String) (dots : Option Int) (grace : Option String) (notes : List NoteTag)
    (nd : PyNum) (hd : DURATIONS dt = some nd) :
    walkVoice (.chord dt dots grace notes :: es) p sc st =
      (walkVoice es
          (if grace.isSome then p else p.add (nd.mulQ (sc * dotFactor (dots.getD 0))))
          sc st).map
        fun res => (notes.map (chordRow p nd sc dots grace) ++ res.1, res.2) := by
  simp only [walkVoice, hd, dotscalar_eq]
  rfl

/-- A Rest leaves the walker state unchanged: its DURATIONS lookup runs
(lines 639-642), but the pointer advance at lines 697-698 is inside the
Chord branch, so the computed duration is discarded. -/
theorem walkVoice_rest (es : List VoiceEvent) (p : PyNum) (sc : Rat) (st : List Rat)
    (dt : String) (dots : Option Int) (nd : PyNum) (hd : DURATIONS dt = some nd) :
    walkVoice (.rest dt dots :: es) p sc st = walkVoice es p sc st := by
  simp only [walkVoice, hd]

/-- The concrete scenario of the claim: a 2:3 tuplet containing three
undotted eighth-note chords, each with a single note. -/
def tripletNote : NoteTag := ⟨16, 62, none⟩

def tripletExample : List VoiceEvent :=
  [.tuplet 2 3,
   .chord "eighth" none none [tripletNote],
   .chord "eighth" none none [tripletNote],
   .chord "eighth" none none [tripletNote],
   .endTuplet]

theorem tripletExample_walk :
    walkVoice tripletExample ⟨0, false⟩ 1 [] =
      some ([{ onset := ⟨0, false⟩, duration := ⟨1/12, false⟩, gracenote := none,
               nominal_duration := ⟨1/8, false⟩, scalar := 2/3, tpc := 2, midi := 62,
               tied := none },
             { onset := ⟨1/12, false⟩, duration := ⟨1/12, false⟩, gracenote := none,
               nominal_duration := ⟨1/8, false⟩, scalar := 2/3, tpc := 2, midi := 62,
               tied := none },
             { onset := ⟨1/6, false⟩, duration := ⟨1/12, false⟩, gracenote := none,
               nominal_duration := ⟨1/8, false⟩, scalar := 2/3, tpc := 2, midi := 62,
               tied := none }], ⟨1/4, false⟩) := by
  have e1 : DURATIONS "eighth" = some ⟨1/8, false⟩ := rfl
  simp [tripletExample, walkVoice, e1, tripletNote, NoteRow.mk.injEq,
    PyNum.add, PyNum.mulQ, PyNum.mk.injEq]
  norm_num

/-- Modelled from the claim (not the code): in the claim's walk every Chord
or Rest receives its duration, so the pointer after a rest - the onset of
the event that follows it - is the pointer before it plus the rest's
duration. -/
def restAdvancedOnset (pointer restDuration : Rat) : Rat := pointer + restDuration

/-- C1: the claim's walk is right and the code is wrong at rests.  The
tuplet push, the endTuplet pop and the claimed triplet scenario hold (three
rows with scalar 2/3 and duration 1/12, the pointer advancing by 1/4), and
a Chord's duration follows the claimed formula; but the advance
pointer += duration at lines 697-698 is indented inside the Chord branch of
line 643, so a Rest's duration, though computed at line 642, takes no
effect: after a quarter rest the following quarter chord is emitted at
onset 0 and the voice ends at pointer 1/4, where the claim's walk gives the
rest its duration and puts the chord at onset 1/4.  Every onset after a
rest is therefore wrong by the accumulated rest duration. -/
theorem C1_rest_does_not_advance :
    walkVoice [VoiceEvent.rest "quarter" none,
               VoiceEvent.chord "quarter" none none [⟨16, 62, none⟩]]
        ⟨0, false⟩ 1 [] =
      some ([{ onset := ⟨0, false⟩, duration := ⟨1/4, false⟩, gracenote := none,
               nominal_duration := ⟨1/4, false⟩, scalar := 1, tpc := 2, midi := 62,
               tied := none }], ⟨1/4, false⟩) ∧
    restAdvancedOnset 0 (1/4) = 1/4 ∧ ((1/4 : Rat) ≠ 0) ∧
    (∃ rows q, walkVoice tripletExample ⟨0, false⟩ 1 [] = some (rows, q) ∧
      q = ⟨1/4, false⟩ ∧ rows.length = 3 ∧
      (∀ r ∈ rows, r.scalar = 2/3 ∧ r.duration = ⟨1/12, false⟩ ∧
        r.nominal_duration = ⟨1/8, false⟩) ∧
      rows.map NoteRow.onset = [⟨0, false⟩, ⟨1/12, false⟩, ⟨1/6, false⟩]) := by
  refine ⟨?_, by norm_num [restAdvancedOnset], by norm_num,
    ⟨_, _, tripletExample_walk, rfl, rfl, ?_, ?_⟩⟩
  · have e1 : DURATIONS "quarter" = some ⟨1/4, false⟩ := rfl
    simp [walkVoice, e1, NoteRow.mk.injEq, PyNum.add, PyNum.mulQ, PyNum.mk.injEq]
  · intro r hr
    simp only [List.mem_cons, List.not_mem_nil, or_false] at hr
    rcases hr with hr | hr | hr <;> subst hr <;> exact ⟨rfl, rfl, rfl⟩
  · rfl

/-! ## Measure numbers (ms3.py lines 192-234, compute_mn) -/

/-- The reindexed enumeration of lines 220-222: positions whose dont_count
cell is NaN receive ascending integers starting at k, excluded positions
stay NaN. -/
def assignRegular : Int → List (Option Int) → List (Option Int)
  | _, [] => []
  | k, none :: rest => some k :: assignRegular (k + 1) rest
  | k, some _ :: rest => none :: assignRegular k rest

/-- pandas fillna with method ffill: carry the last seen value forward. -/
def ffillWith : Option Int → List (Option Int) → List (Option Int)
  | _, [] => []
  | _, some v :: rest => some v :: ffillWith (some v) rest
  | carry, none :: rest => carry :: ffillWith carry rest

/-- pandas cumsum with its default skipna: the running sum over non-NaN
cells; NaN cells stay NaN. -/
def cumsumSkipna : Int → List (Option Int) → List (Option Int)
  | _, [] => []
  | acc, none :: rest => none :: cumsumSkipna acc rest
  | acc, some v :: rest => some (acc + v) :: cumsumSkipna (acc + v) rest

/-- Replace a NaN first cell by the given value (lines 223-224 for mn and
227-228 for the offset column). -/
def fixHead (v : Int) : List (Option Int) → List (Option Int)
  | [] => []
  | none :: rest => some v :: rest
  | some w :: rest => some w :: rest

/-- compute_mn (lines 192-234).  excluded is the dont_count column and
offset the numbering_offset column, both indexed by position; a missing
offset column behaves exactly like an all-NaN column because the offset
step is guarded by notna().any().  The final astype(int) cannot meet a NaN
since position 0 is always filled before the forward fill, so reading cells
with getD 0 is exact; an empty input table would raise KeyError at mn[0]
in the source and is outside this model. -/
def compute_mn (excluded offset : List (Option Int)) : List Int :=
  let mn := ffillWith none (fixHead 0 (assignRegular 1 excluded))
  if offset.any (·.isSome) then
    let off := ffillWith none (cumsumSkipna 0 (fixHead 0 offset))
    mn.zipWith (fun a b => a.getD 0 + b.getD 0) off
  else
    mn.map (·.getD 0)

/-- Closed form of the measure-number enumeration: entry i is c plus the
number of counted measures among positions 0..i. -/
def specMn : Int → List (Option Int) → List Int
  | _, [] => []
  | c, none :: rest => (c + 1) :: specMn (c + 1) rest
  | c, some _ :: rest => c :: specMn c rest

/-- Closed form of the cumulative offset: entry i is acc plus the sum of
the present offsets among positions 0..i. -/
def specOff : Int → List (Option Int) → List Int
  | _, [] => []
  | acc, x :: rest => (acc + x.getD 0) :: specOff (acc + x.getD 0) rest

theorem ffill_assign (r : List (Option Int)) :
    ∀ c : Int, ffillWith (some c) (assignRegular (c + 1) r) = (specMn c r).map some := by
  induction r with
  | nil => intro c; rfl
  | cons x rest ih =>
    intro c
    rcases x with _ | w
    · simp only [assignRegular, ffillWith, specMn, List.map_cons]
      rw [ih (c + 1)]
    · simp only [assignRegular, ffillWith, specMn, List.map_cons]
      rw [ih c]

theorem mn_closed_form (excluded : List (Option Int)) :
    ffillWith none (fixHead 0 (assignRegular 1 excluded)) =
      (specMn 0 excluded).map some := by
  rcases excluded with _ | ⟨x, rest⟩
  · rfl
  · rcases x with _ | w
    · simp only [assignRegular, fixHead, ffillWith, specMn, List.map_cons, zero_add]
      rw [ffill_assign rest 1]
    · simp only [assignRegular, fixHead, ffillWith, specMn, List.map_cons]
      have h := ffill_assign rest 0
      norm_num at h
      rw [h]

theorem ffill_cumsum (r : List (Option Int)) :
    ∀ acc : Int, ffillWith (some acc) (cumsumSkipna acc r) = (specOff acc r).map some := by
  induction r with
  | nil => intro acc; rfl
  | cons x rest ih =>
    intro acc
    rcases x with _ | v
    · simp only [cumsumSkipna, ffillWith, specOff, Option.getD_none, List.map_cons, add_zero]
      rw [ih acc]
    · simp only [cumsumSkipna, ffillWith, specOff, Option.getD_some, List.map_cons]
      rw [ih (acc + v)]

theorem off_closed_form (offset : List (Option Int)) :
    ffillWith none (cumsumSkipna 0 (fixHead 0 offset)) =
      (specOff 0 offset).map some := by
  rcases offset with _ | ⟨x, rest⟩
  · rfl
  · rcases x with _ | v
    · simp only [fixHead, cumsumSkipna, ffillWith, specOff, Option.getD_none, add_zero,
        List.map_cons]
      have h := ffill_cumsum rest 0
      norm_num at h ⊢
      rw [h]
    · simp only [fixHead, cumsumSkipna, ffillWith, specOff, Option.getD_some, List.map_cons]
      rw [ffill_cumsum rest (0 + v)]

theorem specMn_getElem (l : List (Option Int)) :
    ∀ (c : Int) (i : Nat), i < l.length →
      (specMn c l)[i]? = some (c + ((l.take (i + 1)).countP (·.isNone) : Int)) := by
  induction l with
  | nil => intro c i hi; simp at hi
  | cons x rest ih =>
    intro c i hi
    rcases x with _ | w
    · rcases i with _ | j
      · simp [specMn, List.countP_cons]
      · simp only [specMn, List.getElem?_cons_succ, List.take_succ_cons, List.countP_cons]
        rw [ih (c + 1) j (by simpa using hi)]
        simp only [Option.isNone_none, Option.some.injEq]
        push_cast
        ring
    · rcases i with _ | j
      · simp [specMn, List.countP_cons]
      · simp only [specMn, List.getElem?_cons_succ, List.take_succ_cons, List.countP_cons]
        rw [ih c j (by simpa using hi)]
        simp

theorem specOff_getElem (l : List (Option Int)) :
    ∀ (acc : Int) (i : Nat), i < l.length →
      (specOff acc l)[i]? = some (acc + ((l.take (i + 1)).map (·.getD 0)).sum) := by
  induction l with
  | nil => intro acc i hi; simp at hi
  | cons x rest ih =>
    intro acc i hi
    rcases i with _ | j
    · simp [specOff]
    · simp only [specOff, List.getElem?_cons_succ, List.take_succ_cons, List.map_cons,
        List.sum_cons]
      rw [ih (acc + x.getD 0) j (by simpa using hi)]
      simp only [Option.some.injEq]
      ring

theorem all_none_sum (l : List (Option Int)) (h : l.any (·.isSome) = false) :
    ∀ i : Nat, ((l.take (i + 1)).map (·.getD 0)).sum = 0 := by
  intro i
  have hz : ∀ x ∈ l, x.getD 0 = 0 := by
    intro x hx
    rcases hh : x with _ | v
    · rfl
    · exfalso
      rw [List.any_eq_false] at h
      have h2 := h x hx
      rw [hh] at h2
      simp at h2
  rw [List.sum_eq_zero]
  intro y hy
  obtain ⟨x, hx, rfl⟩ := List.mem_map.mp hy
  exact hz x (List.mem_of_mem_take hx)

/-- C4: compute_mn assigns ascending integers starting at 1 to rows whose
dont_count cell is NaN, forward-fills across excluded rows, treats an
excluded first row as mn 0 (anacrusis), and adds the forward-filled
cumulative sum of numbering_offset (leading NaN as 0); equivalently, entry
i is the number of counted rows among 0..i plus the sum of the offsets
among 0..i. -/
theorem C4_compute_mn (excluded offset : List (Option Int))
    (hlen : offset.length = excluded.length) (i : Nat) (hi : i < excluded.length) :
    (compute_mn excluded offset)[i]? =
      some ((((excluded.take (i + 1)).countP (·.isNone)) : Int) +
        ((offset.take (i + 1)).map (·.getD 0)).sum) := by
  unfold compute_mn
  by_cases hany : offset.any (·.isSome) = true
  · rw [if_pos hany, mn_closed_form, off_closed_form]
    rw [List.getElem?_zipWith']
    rw [List.getElem?_map, List.getElem?_map]
    rw [specMn_getElem excluded 0 i hi, specOff_getElem offset 0 i (hlen ▸ hi)]
    simp
  · rw [if_neg hany, mn_closed_form]
    rw [List.getElem?_map, List.getElem?_map]
    rw [specMn_getElem excluded 0 i hi]
    have hs := all_none_sum offset (by simpa using hany) i
    have hs2 : (List.take (i + 1) (List.map (fun x => Option.getD x 0) offset)).sum = 0 := by
      rw [← List.map_take]; exact hs
    simp [hs2]

/-- C4 witness: the docstring example of compute_mn, dont_count set at
position 1 and numbering_offset -1 at position 3. -/
theorem C4_compute_mn_witness :
    (compute_mn [none, some 1, none, none, none] [none, none, none, some (-1), none])[4]? =
      some ((([none, some 1, none, none, none].take 5).countP (·.isNone) : Int) +
        (([none, none, none, some (-1), none].take 5).map (·.getD 0)).sum) :=
  C4_compute_mn [none, some 1, none, none, none] [none, none, none, some (-1), none]
    rfl 4 (by norm_num)

/-! ## Repeat structure (ms3.py lines 238-293, compute_repeat_structure) -/

/-- The values the repeats column can hold. -/
inductive RepTag where
  | startRepeat
  | endRepeat
  | firstMeasure
  | lastMeasure
  | newSection
deriving DecidableEq, Repr

/-- One row of the master table as compute_repeat_structure sees it: the mc
index value and the repeats and volta cells (NaN as none).  The row label
used by drop(index=0) is the position in the full table. -/
structure RRow where
  mc : Nat
  repeats : Option RepTag
  volta : Option Nat
deriving DecidableEq, Repr

/-- The filter df.repeats.notna() | df.volta.notna() of line 271. -/
def consideredRow (r : RRow) : Bool := r.repeats.isSome || r.volta.isSome

/-- The while loop of lines 279-281 followed by the comparison of line 282:
walk the rows after the first, skipping NaN repeats, but stop on the last
row regardless; report whether the row stopped on carries endRepeat. -/
def scanCheck : List RRow → Bool
  | [] => false
  | [b] => b.repeats == some RepTag.endRepeat
  | b :: rest =>
    if b.repeats == none then scanCheck rest
    else b.repeats == some RepTag.endRepeat

/-- Measure counts of the startRepeat rows (line 288-289). -/
def startMcs (df : List RRow) : List Nat :=
  (df.filter fun r => r.repeats == some RepTag.startRepeat).map (·.mc)

/-- Measure counts selected by the shifted mask of lines 290-292: a row is
selected when the next row is a startRepeat, and the last row always is. -/
def endMcs : List RRow → List Nat
  | [] => []
  | [a] => [a.mc]
  | a :: b :: rest =>
    (if b.repeats == some RepTag.startRepeat then [a.mc] else []) ++ endMcs (b :: rest)

/-- The preprocessing of compute_repeat_structure (lines 270-286): filter to
considered rows, drop a trailing lastMeasure without volta, return the
length-1 early exit as the empty frame (its mask pairing is empty), check
the implicit-startRepeat upgrade of the firstMeasure sentinel, otherwise
drop the label-0 row (a KeyError - none - when the first table row is not a
considered row, since reset_index makes labels positional).  none models the
IndexError of iloc on an empty frame. -/
def finalDfCore (rows df1 : List RRow) : Option (List RRow) :=
  if df1.length = 1 then some []
  else
    match df1 with
    | [] => none
    | first :: rest =>
      if first.repeats == some RepTag.firstMeasure then
        if scanCheck rest then
          some ({ first with repeats := some RepTag.startRepeat } :: rest)
        else
          match rows with
          | [] => none
          | r0 :: _ => if consideredRow r0 then some rest else none
      else some (first :: rest)

def finalDf (rows : List RRow) : Option (List RRow) :=
  let df0 := rows.filter consideredRow
  match df0.getLast? with
  | none => none
  | some lastRow =>
    finalDfCore rows
      (if lastRow.repeats == some RepTag.lastMeasure && lastRow.volta == none
       then df0.dropLast else df0)

/-- compute_repeat_structure: preprocessing, then zip the startRepeat
measure counts with the shifted-mask measure counts (lines 288-293). -/
def computeRepeatStructure (rows : List RRow) : Option (List (Nat × Nat)) :=
  (finalDf rows).map fun df => (startMcs df).zip (endMcs df)

/-- What the pairing actually computes, written directly: after a
startRepeat at s, remember the most recent considered row; the next
startRepeat closes the pair at that row and opens a new one; the end of the
frame closes the final pair at the last row. -/
def closeRun (s prev : Nat) : List RRow → List (Nat × Nat)
  | [] => [(s, prev)]
  | b :: rest =>
    if b.repeats == some RepTag.startRepeat then (s, prev) :: closeRun b.mc b.mc rest
    else closeRun s b.mc rest

/-- The amended pairing over a whole frame: skip to the first startRepeat
and run closeRun from there. -/
def pairSpec : List RRow → List (Nat × Nat)
  | [] => []
  | r :: rest =>
    if r.repeats == some RepTag.startRepeat then closeRun r.mc r.mc rest
    else pairSpec rest

/-- Modelled from the claim (not the code): the nearest subsequent endRepeat
closes each pair; a missing one is closed by the last considered row. -/
def nearestEnd (s : Nat) (df : List RRow) : Nat :=
  match df.find? fun r => decide (s < r.mc) && r.repeats == some RepTag.endRepeat with
  | some r => r.mc
  | none => (df.map (·.mc)).getLastD s

/-- Modelled from the claim (not the code): each startRepeat paired with
its nearest subsequent endRepeat. -/
def nearestEndPairs (df : List RRow) : List (Nat × Nat) :=
  (startMcs df).map fun s => (s, nearestEnd s df)

/-- The counterexample table: startRepeat at 0, endRepeat at 2, volta row at
3, startRepeat at 4, endRepeat at 5. -/
def exRepeatTable : List RRow :=
  [⟨0, some RepTag.startRepeat, none⟩,
   ⟨1, none, none⟩,
   ⟨2, some RepTag.endRepeat, none⟩,
   ⟨3, none, some 2⟩,
   ⟨4, some RepTag.startRepeat, none⟩,
   ⟨5, some RepTag.endRepeat, none⟩]

/-- C3 counterexample: the analyzer pairs the startRepeat at 0 with the
volta-only row at 3 (the considered row before the next startRepeat), not
with the nearest subsequent endRepeat at 2 as the claim states. -/
theorem C3_counterexample :
    computeRepeatStructure exRepeatTable = some [(0, 3), (4, 5)] ∧
    (finalDf exRepeatTable).map nearestEndPairs = some [(0, 2), (4, 5)] ∧
    computeRepeatStructure exRepeatTable ≠ (finalDf exRepeatTable).map nearestEndPairs := by
  refine ⟨by decide, by decide, by decide⟩

/-- The end-mask values that follow a row with measure count prev. -/
def endList (prev : Nat) : List RRow → List Nat
  | [] => [prev]
  | b :: rest =>
    (if b.repeats == some RepTag.startRepeat then [prev] else []) ++ endList b.mc rest

theorem endMcs_eq_endList (a : RRow) (rest : List RRow) :
    endMcs (a :: rest) = endList a.mc rest := by
  induction rest generalizing a with
  | nil => rfl
  | cons b r ih =>
    rw [endMcs, endList, ih b]

theorem zip_eq_closeRun (rest : List RRow) :
    ∀ s prev : Nat, (s :: startMcs rest).zip (endList prev rest) = closeRun s prev rest := by
  induction rest with
  | nil => intro s prev; rfl
  | cons b r ih =>
    intro s prev
    by_cases hb : b.repeats == some RepTag.startRepeat
    · rw [closeRun, if_pos hb, endList, if_pos hb]
      have hs : startMcs (b :: r) = b.mc :: startMcs r := by
        simp [startMcs, List.filter_cons, hb]
      rw [hs]
      simp only [List.singleton_append, List.zip_cons_cons]
      rw [ih b.mc b.mc]
    · rw [closeRun, if_neg hb, endList, if_neg hb]
      have hs : startMcs (b :: r) = startMcs r := by
        have hb2 : ¬ b.repeats = some RepTag.startRepeat := by simpa using hb
        simp [startMcs, List.filter_cons, hb2]
      rw [hs]
      simp only [List.nil_append]
      rw [ih s b.mc]

theorem startMcs_nil_of_no_start (df : List RRow)
    (h : ∀ r ∈ df, ¬r.repeats = some RepTag.startRepeat) : startMcs df = [] := by
  simp only [startMcs, List.map_eq_nil_iff, List.filter_eq_nil_iff]
  intro r hr
  simpa using h r hr

theorem pairSpec_nil_of_no_start (df : List RRow)
    (h : ∀ r ∈ df, ¬r.repeats = some RepTag.startRepeat) : pairSpec df = [] := by
  induction df with
  | nil => rfl
  | cons a rest ih =>
    rw [pairSpec, if_neg (by simpa using h a (List.mem_cons_self a rest))]
    exact ih fun r hr => h r (List.mem_cons_of_mem a hr)

/-- The mask-and-zip pairing agrees with the direct description whenever the
frame starts with a startRepeat, and both are empty when there is none. -/
theorem zip_eq_pairSpec (df : List RRow)
    (h : (∀ r ∈ df, ¬r.repeats = some RepTag.startRepeat) ∨
      df.head?.any (fun r => r.repeats == some RepTag.startRepeat) = true) :
    (startMcs df).zip (endMcs df) = pairSpec df := by
  rcases df with _ | ⟨a, rest⟩
  · rfl
  · rcases h with h | h
    · rw [startMcs_nil_of_no_start _ h, pairSpec_nil_of_no_start _ h]
      rfl
    · simp only [List.head?_cons, Option.any_some] at h
      have hs : startMcs (a :: rest) = a.mc :: startMcs rest := by
        simp [startMcs, List.filter_cons, h]
      rw [hs, endMcs_eq_endList, zip_eq_closeRun, pairSpec, if_pos h]

/-- Pairs are ascending and in document order: every start is at least lo,
each pair has s at most e, and later pairs start after e. -/
def pairsChain : Nat → List (Nat × Nat) → Prop
  | _, [] => True
  | lo, (s, e) :: rest => lo ≤ s ∧ s ≤ e ∧ pairsChain (e + 1) rest

theorem pairsChain_mono (ps : List (Nat × Nat)) :
    ∀ lo lo2 : Nat, lo2 ≤ lo → pairsChain lo ps → pairsChain lo2 ps := by
  induction ps with
  | nil => intro lo lo2 hle h; trivial
  | cons p rest ih =>
    intro lo lo2 hle h
    obtain ⟨h1, h2, h3⟩ := h
    exact ⟨hle.trans h1, h2, h3⟩

theorem closeRun_props (rest : List RRow) :
    ∀ s prev : Nat, s ≤ prev → List.Chain (· < ·) prev (rest.map (·.mc)) →
      pairsChain s (closeRun s prev rest) ∧
      (∃ p, (closeRun s prev rest).getLast? = some p ∧
        p.2 = (rest.map (·.mc)).getLastD prev) ∧
      (∀ pr ∈ closeRun s prev rest, pr.2 ∈ prev :: rest.map (·.mc)) := by
  induction rest with
  | nil =>
    intro s prev hsp hch
    refine ⟨⟨le_refl s, hsp, trivial⟩, ⟨(s, prev), rfl, rfl⟩, ?_⟩
    intro pr hpr
    simp only [closeRun, List.mem_singleton] at hpr
    subst hpr
    simp
  | cons b r ih =>
    intro s prev hsp hch
    rw [List.map_cons, List.chain_cons] at hch
    obtain ⟨hpb, hch2⟩ := hch
    by_cases hb : b.repeats == some RepTag.startRepeat
    · rw [closeRun, if_pos hb]
      obtain ⟨ihc, ⟨p, hpl, hpe⟩, ihm⟩ := ih b.mc b.mc (le_refl _) hch2
      refine ⟨⟨le_refl s, hsp, ?_⟩, ⟨p, ?_, ?_⟩, ?_⟩
      · exact pairsChain_mono _ b.mc (prev + 1) hpb ihc
      · rcases hcr : closeRun b.mc b.mc r with _ | ⟨q, qs⟩
        · rw [hcr] at hpl; exact absurd hpl (by simp)
        · rw [hcr] at hpl
          rw [List.getLast?_cons_cons]
          exact hpl
      · rw [hpe, List.map_cons, List.getLastD_cons]
      · intro pr hpr
        rcases List.mem_cons.mp hpr with hpr | hpr
        · subst hpr; simp
        · have := ihm pr hpr
          simp only [List.map_cons, List.mem_cons]
          rcases List.mem_cons.mp this with h2 | h2
          · exact Or.inr (Or.inl h2)
          · exact Or.inr (Or.inr h2)
    · rw [closeRun, if_neg hb]
      obtain ⟨ihc, ⟨p, hpl, hpe⟩, ihm⟩ := ih s b.mc (hsp.trans hpb.le) hch2
      refine ⟨ihc, ⟨p, hpl, by rw [hpe, List.map_cons, List.getLastD_cons]⟩, ?_⟩
      intro pr hpr
      have := ihm pr hpr
      simp only [List.map_cons, List.mem_cons]
      rcases List.mem_cons.mp this with h2 | h2
      · exact Or.inr (Or.inl h2)
      · exact Or.inr (Or.inr h2)

theorem getLastD_default_irrel {α : Type} (l : List α) (d1 d2 : α) (h : l ≠ []) :
    l.getLastD d1 = l.getLastD d2 := by
  rcases l with _ | ⟨x, xs⟩
  · exact absurd rfl h
  · rw [List.getLastD_cons, List.getLastD_cons]

theorem pairSpec_props (df : List RRow)
    (hpw : (df.map (·.mc)).Pairwise (· < ·)) :
    pairsChain 0 (pairSpec df) ∧
    (∀ p, (pairSpec df).getLast? = some p →
      p.2 = (df.map (·.mc)).getLastD 0 ∧ df ≠ []) ∧
    (∀ pr ∈ pairSpec df, pr.2 ∈ df.map (·.mc)) := by
  induction df with
  | nil => exact ⟨trivial, by simp [pairSpec], by simp [pairSpec]⟩
  | cons a rest ih =>
    rw [List.map_cons, List.pairwise_cons] at hpw
    obtain ⟨hlt, hpw2⟩ := hpw
    by_cases hb : a.repeats == some RepTag.startRepeat
    · rw [pairSpec, if_pos hb]
      have hch : List.Chain (· < ·) a.mc (rest.map (·.mc)) :=
        List.chain_iff_pairwise.mpr (List.pairwise_cons.mpr ⟨hlt, hpw2⟩)
      obtain ⟨c1, ⟨p0, hl, he⟩, hm⟩ := closeRun_props rest a.mc a.mc (le_refl _) hch
      refine ⟨pairsChain_mono _ a.mc 0 (Nat.zero_le _) c1, ?_, ?_⟩
      · intro p hp
        rw [hl] at hp
        have hpp : p0 = p := Option.some.inj hp
        subst hpp
        refine ⟨?_, by simp⟩
        rw [he, List.map_cons, List.getLastD_cons]
      · intro pr hpr
        have := hm pr hpr
        rwa [List.map_cons]
    · rw [pairSpec, if_neg hb]
      obtain ⟨c1, hlast, hm⟩ := ih hpw2
      refine ⟨c1, ?_, ?_⟩
      · intro p hp
        obtain ⟨hpe, hne⟩ := hlast p hp
        refine ⟨?_, by simp⟩
        rw [hpe, List.map_cons, List.getLastD_cons]
        exact getLastD_default_irrel _ 0 a.mc (by simpa using hne)
      · intro pr hpr
        rw [List.map_cons]
        exact List.mem_cons_of_mem _ (hm pr hpr)

theorem zip_desc_of_head_not_start (rest : List RRow) :
    ∀ prev : Nat, List.Chain (· < ·) prev (rest.map (·.mc)) → startMcs rest ≠ [] →
      ∃ s e tl, (startMcs rest).zip (endList prev rest) = (s, e) :: tl ∧ e < s := by
  induction rest with
  | nil =>
    intro prev hch hne
    exact absurd rfl hne
  | cons b r ih =>
    intro prev hch hne
    rw [List.map_cons, List.chain_cons] at hch
    obtain ⟨hpb, hch2⟩ := hch
    by_cases hb : b.repeats == some RepTag.startRepeat
    · have hs : startMcs (b :: r) = b.mc :: startMcs r := by
        simp [startMcs, List.filter_cons, hb]
      rw [hs, endList, if_pos hb]
      refine ⟨b.mc, prev, (startMcs r).zip (endList b.mc r), ?_, hpb⟩
      simp
    · have hb2 : ¬ b.repeats = some RepTag.startRepeat := by simpa using hb
      have hs : startMcs (b :: r) = startMcs r := by
        simp [startMcs, List.filter_cons, hb2]
      rw [hs, endList, if_neg hb]
      simp only [List.nil_append]
      exact ih b.mc hch2 (by rwa [hs] at hne)

/-- When no zip pair is descending, either there is no startRepeat at all or
the frame opens with one: otherwise the shifted mask misaligns and the very
first pair pairs a startRepeat with an earlier row. -/
theorem head_start_of_ascending (df : List RRow)
    (hpw : (df.map (·.mc)).Pairwise (· < ·))
    (hasc : ∀ p ∈ (startMcs df).zip (endMcs df), p.1 ≤ p.2) :
    (∀ r ∈ df, ¬r.repeats = some RepTag.startRepeat) ∨
      df.head?.any (fun r => r.repeats == some RepTag.startRepeat) = true := by
  rcases df with _ | ⟨a, rest⟩
  · exact Or.inl (by simp)
  · by_cases ha : a.repeats == some RepTag.startRepeat
    · exact Or.inr (by simpa using ha)
    · left
      intro r hr
      rcases List.mem_cons.mp hr with hr | hr
      · subst hr; simpa using ha
      · intro hcon
        have hne : startMcs rest ≠ [] := by
          simp only [startMcs, ne_eq, List.map_eq_nil_iff, List.filter_eq_nil_iff]
          intro hall
          have h2 := hall r hr
          simp only [beq_iff_eq] at h2
          exact h2 hcon
        rw [List.map_cons, List.pairwise_cons] at hpw
        have hch : List.Chain (· < ·) a.mc (rest.map (·.mc)) :=
          List.chain_iff_pairwise.mpr (List.pairwise_cons.mpr hpw)
        obtain ⟨s, e, tl, hzip, hlt⟩ := zip_desc_of_head_not_start rest a.mc hch hne
        have ha2 : ¬ a.repeats = some RepTag.startRepeat := by simpa using ha
        have hs : startMcs (a :: rest) = startMcs rest := by
          simp [startMcs, List.filter_cons, ha2]
        have hmem : (s, e) ∈ (startMcs (a :: rest)).zip (endMcs (a :: rest)) := by
          rw [hs, endMcs_eq_endList, hzip]
          exact List.mem_cons_self _ _
        have := hasc (s, e) hmem
        omega

/-- C3 amended: the analyzer pairs each startRepeat with the considered row
immediately preceding the next startRepeat, the final pair being closed by
the last considered row - not with the nearest subsequent endRepeat - and,
provided the preprocessed frame opens with a startRepeat whenever it
contains any, the output is that pairing in document order (ascending,
non-overlapping pairs). -/
theorem C3_repeat_pairing (rows df : List RRow) (pairs : List (Nat × Nat))
    (hdf : finalDf rows = some df)
    (hp : computeRepeatStructure rows = some pairs)
    (hhead : (∀ r ∈ df, ¬r.repeats = some RepTag.startRepeat) ∨
      df.head?.any (fun r => r.repeats == some RepTag.startRepeat) = true)
    (hpw : (df.map (·.mc)).Pairwise (· < ·)) :
    pairs = pairSpec df ∧ pairsChain 0 pairs := by
  have hzip : pairs = (startMcs df).zip (endMcs df) := by
    rw [computeRepeatStructure, hdf] at hp
    simpa using hp.symm
  rw [hzip, zip_eq_pairSpec df hhead]
  exact ⟨rfl, (pairSpec_props df hpw).1⟩

/-- C3 witness: a table with the implicit-startRepeat upgrade, giving the
pairs (0,1) and (2,3). -/
theorem C3_repeat_pairing_witness :
    ([(0, 1), (2, 3)] : List (Nat × Nat)) =
      pairSpec [⟨0, some RepTag.startRepeat, none⟩, ⟨1, some RepTag.endRepeat, none⟩,
        ⟨2, some RepTag.startRepeat, none⟩, ⟨3, some RepTag.endRepeat, none⟩] ∧
    pairsChain 0 [(0, 1), (2, 3)] :=
  C3_repeat_pairing
    [⟨0, some RepTag.firstMeasure, none⟩, ⟨1, some RepTag.endRepeat, none⟩,
     ⟨2, some RepTag.startRepeat, none⟩, ⟨3, some RepTag.endRepeat, none⟩]
    [⟨0, some RepTag.startRepeat, none⟩, ⟨1, some RepTag.endRepeat, none⟩,
     ⟨2, some RepTag.startRepeat, none⟩, ⟨3, some RepTag.endRepeat, none⟩]
    [(0, 1), (2, 3)]
    (by decide) (by decide) (Or.inr (by decide)) (by decide)

/-! ## Section building (ms3.py lines 944-1007, create_section and the
constructor loop over compute_repeat_structure) -/

/-- The separating-barline positions inside a would-be section: the barline
cells of the inclusive label slice fro+1 .. to-1 that lie in the
separating_barlines set, abstracted as the Bool function isSplit. -/
def splitMcs (isSplit : Nat → Bool) (fro tto : Nat) : List Nat :=
  (List.range' (fro + 1) (tto - 1 - fro)).filter isSplit

/-- Consecutive pairs bounds[2i], bounds[2i+1] (lines 972-973). -/
def pairUp : List Nat → List (Nat × Nat)
  | a :: b :: rest => (a, b) :: pairUp rest
  | _ => []

/-- create_section reduced to the list of inclusive subsection ranges it
records in section_structure: either the whole range, or, when separating
barlines occur strictly inside, the chunked sorted bounds
[fro, to] + splits + (splits+1) (lines 961-983). -/
def createSection (isSplit : Nat → Bool) (fro tto : Nat) : List (Nat × Nat) :=
  let splits := splitMcs isSplit fro tto
  if splits.isEmpty then [(fro, tto)]
  else pairUp (List.insertionSort (· ≤ ·) ([fro, tto] ++ splits ++ splits.map (· + 1)))

/-- The constructor loop over the repeat pairs (lines 999-1005): an
unrepeated gap section when the pair does not start right after the
previous one, then the repeated section; last_to is an Int because it
starts at -1. -/
def sectionLoop (isSplit : Nat → Bool) : List (Nat × Nat) → Int → List (Nat × Nat)
  | [], _ => []
  | (fro, e) :: rest, lastTo =>
    (if (fro : Int) ≠ lastTo + 1 then createSection isSplit (lastTo + 1).toNat (fro - 1)
     else [])
      ++ createSection isSplit fro e
      ++ sectionLoop isSplit rest (e : Int)

/-- The complete list of section ranges: the loop body, then the trailing
unrepeated section of lines 1006-1007, where to is 0 when there are no
repeats. -/
def sectionRanges (isSplit : Nat → Bool) (pairs : List (Nat × Nat)) (lastNode : Nat) :
    List (Nat × Nat) :=
  let toFinal := ((pairs.getLast?).map (·.2)).getD 0
  sectionLoop isSplit pairs (-1)
    ++ (if toFinal ≠ lastNode then
          createSection isSplit (if 0 < toFinal then toFinal + 1 else 0) lastNode
        else [])

/-- The interleaving s, s+1 for every split point, in order. -/
def doubled : List Nat → List Nat
  | [] => []
  | s :: rest => s :: (s + 1) :: doubled rest

theorem doubled_perm (sp : List Nat) : List.Perm (doubled sp) (sp ++ sp.map (· + 1)) := by
  induction sp with
  | nil => rfl
  | cons s r ih =>
    simp only [doubled, List.map_cons, List.cons_append]
    refine List.Perm.cons s ?_
    exact (ih.cons (s + 1)).trans (List.perm_middle).symm

theorem mem_doubled {b : Nat} {sp : List Nat} :
    b ∈ doubled sp ↔ ∃ x ∈ sp, b = x ∨ b = x + 1 := by
  induction sp with
  | nil => simp [doubled]
  | cons s r ih =>
    rw [doubled, List.mem_cons, List.mem_cons, ih]
    constructor
    · rintro (h1 | h1 | ⟨x, hx, h⟩)
      · exact ⟨s, List.mem_cons_self s r, Or.inl h1⟩
      · exact ⟨s, List.mem_cons_self s r, Or.inr h1⟩
      · exact ⟨x, List.mem_cons_of_mem s hx, h⟩
    · rintro ⟨x, hx, h⟩
      rcases List.mem_cons.mp hx with h2 | hx2
      · subst h2
        rcases h with h3 | h3
        · exact Or.inl h3
        · exact Or.inr (Or.inl h3)
      · exact Or.inr (Or.inr ⟨x, hx2, h⟩)

theorem bounds_perm (fro tto : Nat) (sp : List Nat) :
    List.Perm ([fro, tto] ++ sp ++ sp.map (· + 1)) (fro :: (doubled sp ++ [tto])) := by
  have h1 : [fro, tto] ++ sp ++ sp.map (· + 1) = fro :: (tto :: (sp ++ sp.map (· + 1))) := by
    simp
  rw [h1]
  refine List.Perm.cons fro ?_
  have h2 : List.Perm (tto :: (sp ++ sp.map (· + 1))) (tto :: doubled sp) :=
    List.Perm.cons tto (doubled_perm sp).symm
  refine h2.trans ?_
  have h3 : List.Perm (doubled sp ++ [tto]) (tto :: (doubled sp ++ [])) :=
    List.perm_middle
  simpa using h3.symm

theorem bounds_sorted (sp : List Nat) :
    ∀ fro tto : Nat, sp.Pairwise (· < ·) → (∀ s ∈ sp, fro ≤ s) → (∀ s ∈ sp, s < tto) →
      fro ≤ tto → List.Sorted (· ≤ ·) (fro :: (doubled sp ++ [tto])) := by
  induction sp with
  | nil =>
    intro fro tto hpw hlo hhi hft
    simp [doubled, List.sorted_cons, hft]
  | cons s r ih =>
    intro fro tto hpw hlo hhi hft
    rw [List.pairwise_cons] at hpw
    obtain ⟨hs, hpw2⟩ := hpw
    have hmain := ih (s + 1) tto hpw2
      (fun x hx => Nat.succ_le_of_lt (hs x hx))
      (fun x hx => hhi x (List.mem_cons_of_mem s hx))
      (Nat.succ_le_of_lt (hhi s (List.mem_cons_self s r)))
    simp only [doubled, List.cons_append]
    rw [List.sorted_cons]
    refine ⟨?_, ?_⟩
    · intro b hb
      have hfs : fro ≤ s := hlo s (List.mem_cons_self s r)
      rcases List.mem_cons.mp hb with rfl | hb2
      · exact hfs
      rcases List.mem_cons.mp hb2 with rfl | hb3
      · omega
      rcases List.mem_append.mp hb3 with hb4 | hb4
      · obtain ⟨x, hx, hbx⟩ := mem_doubled.mp hb4
        have hfx : fro ≤ x := hlo x (List.mem_cons_of_mem s hx)
        rcases hbx with rfl | rfl
        · exact hfx
        · omega
      · simp only [List.mem_singleton] at hb4
        subst hb4
        exact hft
    rw [List.sorted_cons]
    refine ⟨?_, ?_⟩
    · intro b hb
      rcases List.mem_cons.mp hb with rfl | hb2
      · omega
      rcases List.mem_append.mp hb2 with hb3 | hb3
      · obtain ⟨x, hx, hbx⟩ := mem_doubled.mp hb3
        have := hs x hx
        rcases hbx with rfl | rfl <;> omega
      · simp only [List.mem_singleton] at hb3
        subst hb3
        exact Nat.le_of_lt (hhi s (List.mem_cons_self s r))
    exact hmain

theorem insertionSort_bounds (fro tto : Nat) (sp : List Nat)
    (hpw : sp.Pairwise (· < ·)) (hlo : ∀ s ∈ sp, fro ≤ s) (hhi : ∀ s ∈ sp, s < tto)
    (hft : fro ≤ tto) :
    List.insertionSort (· ≤ ·) ([fro, tto] ++ sp ++ sp.map (· + 1)) =
      fro :: (doubled sp ++ [tto]) := by
  refine List.eq_of_perm_of_sorted ?_ (List.sorted_insertionSort _ _) ?_
  · exact (List.perm_insertionSort _ _).trans (bounds_perm fro tto sp)
  · exact bounds_sorted sp fro tto hpw hlo hhi hft

theorem pairUp_countP (sp : List Nat) :
    ∀ fro tto mc : Nat, sp.Pairwise (· < ·) → (∀ s ∈ sp, fro ≤ s) →
      (∀ s ∈ sp, s < tto) → fro ≤ tto →
      (pairUp (fro :: (doubled sp ++ [tto]))).countP
          (fun pr => decide (pr.1 ≤ mc) && decide (mc ≤ pr.2)) =
        if fro ≤ mc ∧ mc ≤ tto then 1 else 0 := by
  induction sp with
  | nil =>
    intro fro tto mc hpw hlo hhi hft
    simp only [doubled, List.nil_append]
    rw [show pairUp [fro, tto] = [(fro, tto)] from rfl, List.countP_cons]
    simp only [List.countP_nil, Bool.and_eq_true, decide_eq_true_eq]
    split_ifs <;> omega
  | cons s r ih =>
    intro fro tto mc hpw hlo hhi hft
    rw [List.pairwise_cons] at hpw
    obtain ⟨hs, hpw2⟩ := hpw
    have hfs : fro ≤ s := hlo s (List.mem_cons_self s r)
    have hst : s < tto := hhi s (List.mem_cons_self s r)
    simp only [doubled, List.cons_append]
    rw [show pairUp (fro :: s :: ((s + 1) :: (doubled r ++ [tto]))) =
        (fro, s) :: pairUp ((s + 1) :: (doubled r ++ [tto])) from rfl]
    rw [List.countP_cons]
    rw [ih (s + 1) tto mc hpw2 (fun x hx => Nat.succ_le_of_lt (hs x hx))
      (fun x hx => hhi x (List.mem_cons_of_mem s hx)) (Nat.succ_le_of_lt hst)]
    simp only [Bool.and_eq_true, decide_eq_true_eq]
    split_ifs <;> omega

/-- Each createSection call partitions its own inclusive range exactly:
every measure count in [fro, tto] is covered by exactly one emitted
subsection and no measure count outside it is covered. -/
theorem createSection_countP (isSplit : Nat → Bool) (fro tto mc : Nat) (h : fro ≤ tto) :
    (createSection isSplit fro tto).countP
        (fun pr => decide (pr.1 ≤ mc) && decide (mc ≤ pr.2)) =
      if fro ≤ mc ∧ mc ≤ tto then 1 else 0 := by
  simp only [createSection]
  by_cases hsp : (splitMcs isSplit fro tto).isEmpty
  · rw [if_pos hsp, List.countP_cons]
    simp only [List.countP_nil, Bool.and_eq_true, decide_eq_true_eq]
    split_ifs <;> omega
  · rw [if_neg hsp]
    have hpw : (splitMcs isSplit fro tto).Pairwise (· < ·) :=
      List.Pairwise.sublist (List.filter_sublist _) (List.pairwise_lt_range' _ _)
    have hlo : ∀ s ∈ splitMcs isSplit fro tto, fro ≤ s := by
      intro s hsm
      have := List.mem_range'_1.mp (List.mem_of_mem_filter hsm)
      omega
    have hhi : ∀ s ∈ splitMcs isSplit fro tto, s < tto := by
      intro s hsm
      have := List.mem_range'_1.mp (List.mem_of_mem_filter hsm)
      omega
    rw [insertionSort_bounds fro tto _ hpw hlo hhi h]
    exact pairUp_countP _ fro tto mc hpw hlo hhi h

/-- The last_to value at the end of the loop: the last pair's e, or the
initial value when there are no pairs. -/
def loopEnd (pairs : List (Nat × Nat)) (lt0 : Int) : Int :=
  match pairs.getLast? with
  | some p => (p.2 : Int)
  | none => lt0

theorem loopEnd_cons (fro e : Nat) (rest : List (Nat × Nat)) (lt0 : Int) :
    loopEnd ((fro, e) :: rest) lt0 = loopEnd rest (e : Int) := by
  rcases rest with _ | ⟨q, qs⟩
  · rfl
  · have h := List.getLast?_eq_getLast (q :: qs) (by simp)
    simp only [loopEnd, List.getLast?_cons_cons, h]

theorem loopEnd_ge (ps : List (Nat × Nat)) :
    ∀ (lo : Nat) (lt0 : Int), pairsChain lo ps → lt0 ≤ (lo : Int) - 1 →
      lt0 ≤ loopEnd ps lt0 := by
  induction ps with
  | nil => intro lo lt0 hch hlt; exact le_refl lt0
  | cons p rest ih =>
    obtain ⟨fro, e⟩ := p
    intro lo lt0 hch hlt
    obtain ⟨h1, h2, h3⟩ := hch
    rw [loopEnd_cons]
    have he : (e : Int) ≤ loopEnd rest (e : Int) := by
      refine ih (e + 1) (e : Int) h3 ?_
      push_cast
      omega
    omega

/-- The loop over the repeat pairs covers exactly the measure counts from lo
up to the final last_to. -/
theorem sectionLoop_countP (isSplit : Nat → Bool) (ps : List (Nat × Nat)) :
    ∀ (lo : Nat) (mc : Nat), pairsChain lo ps →
      (sectionLoop isSplit ps ((lo : Int) - 1)).countP
          (fun pr => decide (pr.1 ≤ mc) && decide (mc ≤ pr.2)) =
        if (lo : Int) ≤ (mc : Int) ∧ (mc : Int) ≤ loopEnd ps ((lo : Int) - 1) then 1
        else 0 := by
  induction ps with
  | nil =>
    intro lo mc hch
    simp only [sectionLoop, List.countP_nil, loopEnd, List.getLast?_nil]
    rw [if_neg]
    omega
  | cons p rest ih =>
    obtain ⟨fro, e⟩ := p
    intro lo mc hch
    obtain ⟨h1, h2, h3⟩ := hch
    rw [sectionLoop, List.countP_append, List.countP_append]
    have hcast : ((e + 1 : Nat) : Int) - 1 = (e : Int) := by push_cast; omega
    have htail := ih (e + 1) mc h3
    rw [hcast] at htail
    rw [htail]
    have hmid := createSection_countP isSplit fro e mc h2
    rw [hmid]
    have hLE : (e : Int) ≤ loopEnd rest (e : Int) :=
      loopEnd_ge rest (e + 1) (e : Int) h3 (by push_cast; omega)
    rw [loopEnd_cons]
    by_cases hg : (fro : Int) ≠ ((lo : Int) - 1) + 1
    · rw [if_pos hg]
      have hfro : lo < fro := by omega
      have htn : (((lo : Int) - 1) + 1).toNat = lo := by omega
      rw [htn]
      have hgap := createSection_countP isSplit lo (fro - 1) mc (by omega)
      rw [hgap]
      split_ifs <;> omega
    · rw [if_neg hg]
      simp only [List.countP_nil, Nat.zero_add]
      have hfro : (fro : Int) = (lo : Int) := by omega
      split_ifs <;> omega

/-- The full section-range list partitions [0, lastNode] exactly, provided
the repeat pairs form an ascending chain within bounds, a nonempty chain
ends at measure count at least 1 (otherwise the trailing section restarts
at 0 and overlaps), and at least one section exists. -/
theorem sectionRanges_partition (isSplit : Nat → Bool) (pairs : List (Nat × Nat))
    (lastNode : Nat) (hch : pairsChain 0 pairs)
    (hle : ∀ p ∈ pairs, p.2 ≤ lastNode)
    (hpos : ∀ p, pairs.getLast? = some p → 1 ≤ p.2)
    (hne : sectionRanges isSplit pairs lastNode ≠ []) :
    ∀ mc : Nat, (sectionRanges isSplit pairs lastNode).countP
        (fun pr => decide (pr.1 ≤ mc) && decide (mc ≤ pr.2)) =
      if mc ≤ lastNode then 1 else 0 := by
  intro mc
  have hbase := sectionLoop_countP isSplit pairs 0 mc hch
  have hc0 : ((0 : Nat) : Int) - 1 = (-1 : Int) := by norm_num
  rw [hc0] at hbase
  rcases hp : pairs.getLast? with _ | p
  · have hpairs : pairs = [] := List.getLast?_eq_none_iff.mp hp
    subst hpairs
    simp only [sectionRanges, List.getLast?_nil, Option.map_none', Option.getD_none,
      sectionLoop, List.nil_append]
    by_cases hl : (0 : Nat) ≠ lastNode
    · rw [if_pos hl]
      have h0 : (if (0 : Nat) < 0 then 0 + 1 else 0) = (0 : Nat) := rfl
      simp only [h0, if_false]
      rw [createSection_countP isSplit 0 lastNode mc (Nat.zero_le _)]
      split_ifs <;> omega
    · rw [if_neg hl]
      exfalso
      apply hne
      simp only [sectionRanges, List.getLast?_nil, Option.map_none', Option.getD_none,
        sectionLoop, List.nil_append]
      rw [if_neg hl]
  · have hlast : loopEnd pairs (-1) = (p.2 : Int) := by
      simp only [loopEnd, hp]
    rw [hlast] at hbase
    have hp2 : 1 ≤ p.2 := hpos p hp
    have hp2le : p.2 ≤ lastNode := hle p (List.mem_of_getLast?_eq_some hp)
    simp only [sectionRanges, hp, Option.map_some', Option.getD_some]
    rw [List.countP_append, hbase]
    by_cases hl : p.2 ≠ lastNode
    · rw [if_pos hl, if_pos (by omega : 0 < p.2)]
      rw [createSection_countP isSplit (p.2 + 1) lastNode mc (by omega)]
      split_ifs <;> omega
    · rw [if_neg hl]
      simp only [List.countP_nil]
      split_ifs <;> omega

theorem finalDfCore_facts (rows df1 df : List RRow)
    (hsub1 : (df1.map (·.mc)).Sublist (rows.map (·.mc)))
    (h : finalDfCore rows df1 = some df) :
    (df.map (·.mc)).Sublist (rows.map (·.mc)) ∧
    (2 ≤ df.length ∨ df = [] ∨
      ∃ m0, (m0 :: df.map (·.mc)).Sublist (rows.map (·.mc))) := by
  rw [finalDfCore.eq_def] at h
  by_cases hlen : df1.length = 1
  · rw [if_pos hlen] at h
    have hdf : df = [] := (Option.some.inj h).symm
    subst hdf
    exact ⟨List.nil_sublist _, Or.inr (Or.inl rfl)⟩
  · rw [if_neg hlen] at h
    split at h
    · exact absurd h (by simp)
    rename_i first rest
    have hlen2 : 2 ≤ (first :: rest).length := by
      rcases rest with _ | _
      · simp at hlen
      · simp only [List.length_cons]
        omega
    by_cases hfm : first.repeats == some RepTag.firstMeasure
    · rw [if_pos hfm] at h
      by_cases hsc : scanCheck rest = true
      · rw [if_pos hsc] at h
        have hdf : df = { first with repeats := some RepTag.startRepeat } :: rest :=
          (Option.some.inj h).symm
        subst hdf
        have hmceq : ({ first with repeats := some RepTag.startRepeat } :: rest).map (·.mc) =
            (first :: rest).map (·.mc) := rfl
        rw [hmceq]
        exact ⟨hsub1, Or.inl (by simpa using hlen2)⟩
      · rw [if_neg hsc] at h
        split at h
        · exact absurd h (by simp)
        rename_i r0 rtail
        by_cases hc0 : consideredRow r0
        · rw [if_pos hc0] at h
          have hdf : df = rest := (Option.some.inj h).symm
          subst hdf
          refine ⟨?_, Or.inr (Or.inr ⟨first.mc, hsub1⟩)⟩
          refine List.Sublist.trans ?_ hsub1
          simp only [List.map_cons]
          exact List.sublist_cons_self _ _
        · rw [if_neg hc0] at h
          exact absurd h (by simp)
    · rw [if_neg hfm] at h
      have hdf : df = first :: rest := (Option.some.inj h).symm
      subst hdf
      exact ⟨hsub1, Or.inl (by simpa using hlen2)⟩

/-- Structural facts about the preprocessed frame: its measure counts are a
subsequence of the table's, and it is either empty, of length at least 2,
or (in the label-0 drop branch) preceded by a dropped row whose measure
count also embeds before it into the table. -/
theorem finalDf_facts (rows df : List RRow) (h : finalDf rows = some df) :
    (df.map (·.mc)).Sublist (rows.map (·.mc)) ∧
    (2 ≤ df.length ∨ df = [] ∨
      ∃ m0, (m0 :: df.map (·.mc)).Sublist (rows.map (·.mc))) := by
  simp only [finalDf] at h
  split at h
  · exact absurd h (by simp)
  refine finalDfCore_facts rows _ df ?_ h
  split
  · exact List.Sublist.map _ ((List.dropLast_sublist _).trans (List.filter_sublist _))
  · exact List.Sublist.map _ (List.filter_sublist _)

theorem getLastD_mem (l : List Nat) : ∀ d : Nat, l ≠ [] → l.getLastD d ∈ l := by
  induction l with
  | nil => intro d hd; exact absurd rfl hd
  | cons x xs ih =>
    intro d hd
    rw [List.getLastD_cons]
    rcases xs with _ | ⟨y, ys⟩
    · simp [List.getLastD]
    · exact List.mem_cons_of_mem x (ih x (by simp))

theorem getLastD_pos_of_two (ms : List Nat) (hpw : ms.Pairwise (· < ·))
    (h2 : 2 ≤ ms.length) : 1 ≤ ms.getLastD 0 := by
  rcases ms with _ | ⟨m0, _ | ⟨m1, rest⟩⟩
  · simp at h2
  · simp at h2
  · rw [List.getLastD_cons]
    have hmem : (m1 :: rest).getLastD m0 ∈ m1 :: rest := getLastD_mem _ m0 (by simp)
    rw [List.pairwise_cons] at hpw
    have := hpw.1 _ hmem
    omega

/-- C5: for every measure table whose index is the positions 0..n-1, when
the repeat analyzer succeeds and the construction of the Score completes -
which requires every emitted repeat pair to be ascending (a descending pair
creates a section owning no rows and the constructor then fails reading its
first measure number) and at least one section to exist (the constructor
unconditionally draws the first element of section_structure) - the
inclusive section ranges partition [0, last_mc] exactly: every mc at most
last_mc is covered by exactly one range and no mc is covered twice. -/
theorem C5_section_partition (rows df : List RRow) (pairs : List (Nat × Nat))
    (isSplit : Nat → Bool)
    (hwf : rows.map (·.mc) = List.range rows.length)
    (hdf : finalDf rows = some df)
    (hcrs : computeRepeatStructure rows = some pairs)
    (hasc : ∀ p ∈ pairs, p.1 ≤ p.2)
    (hne : sectionRanges isSplit pairs (rows.length - 1) ≠ []) :
    ∀ mc : Nat, (sectionRanges isSplit pairs (rows.length - 1)).countP
        (fun pr => decide (pr.1 ≤ mc) && decide (mc ≤ pr.2)) =
      if mc ≤ rows.length - 1 then 1 else 0 := by
  have hzip : pairs = (startMcs df).zip (endMcs df) := by
    rw [computeRepeatStructure, hdf] at hcrs
    simpa using hcrs.symm
  obtain ⟨hsub, hdisj⟩ := finalDf_facts rows df hdf
  have hrange : (rows.map (·.mc)).Pairwise (· < ·) := by
    rw [hwf]
    exact List.pairwise_lt_range _
  have hpw : (df.map (·.mc)).Pairwise (· < ·) := List.Pairwise.sublist hsub hrange
  have hhead := head_start_of_ascending df hpw (hzip ▸ hasc)
  have hps : pairs = pairSpec df := hzip.trans (zip_eq_pairSpec df hhead)
  obtain ⟨hchain, hlastf, hmemf⟩ := pairSpec_props df hpw
  rw [hps] at hne ⊢
  apply sectionRanges_partition isSplit (pairSpec df) (rows.length - 1) hchain ?_ ?_ hne
  · intro p hp
    have hmem : p.2 ∈ df.map (·.mc) := hmemf p hp
    have hmem2 : p.2 ∈ rows.map (·.mc) := hsub.subset hmem
    rw [hwf] at hmem2
    have := List.mem_range.mp hmem2
    omega
  · intro p hp
    obtain ⟨hpe, hdne⟩ := hlastf p hp
    rcases hdisj with hlen2 | hnil | ⟨m0, hm0⟩
    · rw [hpe]
      exact getLastD_pos_of_two _ hpw (by simpa using hlen2)
    · exact absurd hnil hdne
    · have hpw0 : (m0 :: df.map (·.mc)).Pairwise (· < ·) :=
        List.Pairwise.sublist hm0 hrange
      rw [List.pairwise_cons] at hpw0
      have hmemL : (df.map (·.mc)).getLastD 0 ∈ df.map (·.mc) :=
        getLastD_mem _ 0 (by simpa using hdne)
      have := hpw0.1 _ hmemL
      omega

/-- C5 witness: a four-measure table with a repeat from mc 1 to mc 3 and no
separating barlines gives the ranges (0,0) and (1,3), and every mc at most
3 lies in exactly one of them. -/
theorem C5_section_partition_witness :
    (sectionRanges (fun _ => false) [(1, 3)] 3).countP
        (fun pr => decide (pr.1 ≤ 2) && decide (2 ≤ pr.2)) = 1 ∧
    (sectionRanges (fun _ => false) [(1, 3)] 3).countP
        (fun pr => decide (pr.1 ≤ 5) && decide (5 ≤ pr.2)) = 0 := by
  have h := C5_section_partition
    [⟨0, some RepTag.firstMeasure, none⟩, ⟨1, some RepTag.startRepeat, none⟩,
     ⟨2, none, none⟩, ⟨3, some RepTag.endRepeat, none⟩]
    [⟨1, some RepTag.startRepeat, none⟩, ⟨3, some RepTag.endRepeat, none⟩]
    [(1, 3)] (fun _ => false)
    (by decide) (by decide) (by decide) (by decide) (by decide)
  exact ⟨by simpa using h 2, by simpa using h 5⟩

end Ms3
